import Mathlib

/-!
Shallow embedding of the cap-table calculations of the stake-studio
repository.  The data model comes from src/src/pages/Index.tsx; the
ownership view replay comes from src/src/components/OwnershipTable.tsx
(ownershipData); the exit view replay and the exit waterfall come from
src/src/components/ExitScenario.tsx (ownershipStructure, exitCalculations);
the round preview comes from the PricingRound component (calculations);
company setup comes from src/src/components/CompanySetup.tsx (handleSubmit).
JavaScript numbers are modelled as rationals; the JavaScript idiom
"safe.valuationCap || Infinity" followed by Math.min is modelled by
returning the discount price when the cap is absent or zero (Infinity
never wins the min against a finite discount price).
-/

namespace StakeStudio

/-- Company record, from the Company interface in src/src/pages/Index.tsx. -/
structure Company where
  name : String
  foundersShares : ℚ
  totalShares : ℚ
  initialValuation : ℚ
  deriving DecidableEq, Repr

/-- SAFE note, from the SafeInvestment interface in src/src/pages/Index.tsx
(the string id field is omitted: it is a random key never used in any
calculation). -/
structure SafeInvestment where
  investorName : String
  amount : ℚ
  discount : ℚ
  valuationCap : Option ℚ
  converted : Bool
  deriving DecidableEq, Repr

/-- One entry of a priced round's newInvestors list. -/
structure RoundInvestor where
  name : String
  investment : ℚ
  deriving DecidableEq, Repr

/-- Priced round, from the PricingRoundData interface in
src/src/pages/Index.tsx (id omitted, as for SafeInvestment). -/
structure PricingRoundData where
  name : String
  preMoneyValuation : ℚ
  investment : ℚ
  newInvestors : List RoundInvestor
  deriving DecidableEq, Repr

/-- Stakeholder category, the string union used by both views. -/
inductive StakeholderType where
  | founder
  | safe
  | investor
  deriving DecidableEq, Repr

instance : BEq StakeholderType := ⟨fun a b => decide (a = b)⟩

instance : LawfulBEq StakeholderType where
  rfl := by intro a; simp [BEq.beq]
  eq_of_beq := by intro a b h; simpa [BEq.beq] using h

/-- Stakeholder entry as built by both replays.  The ownership view's
mutable ownership-percent field is display data recomputed from shares and
the final total, so it is not stored here (see ownershipPercent). -/
structure Stakeholder where
  name : String
  shares : ℚ
  investment : ℚ
  type : StakeholderType
  deriving DecidableEq, Repr

/-- Ownership percent, OwnershipTable.tsx line 103:
(stakeholder.shares / totalShares) * 100. -/
def ownershipPercent (shares totalShares : ℚ) : ℚ :=
  shares / totalShares * 100

/-- SAFE conversion price, OwnershipTable.tsx lines 58-60 and
ExitScenario.tsx lines 63-65:
discountPrice = preMoney * (1 - discount/100), capPrice = cap || Infinity,
conversionPrice = min(discountPrice, capPrice).  An absent cap, or a cap
of 0 (falsy in JavaScript), yields capPrice = Infinity, so the min is the
discount price. -/
def conversionPrice (preMoney : ℚ) (safe : SafeInvestment) : ℚ :=
  let discountPrice := preMoney * (1 - safe.discount / 100)
  match safe.valuationCap with
  | none => discountPrice
  | some cap => if cap = 0 then discountPrice else min discountPrice cap

/-- Per-share conversion price, line 62 of OwnershipTable.tsx:
sharePrice = conversionPrice / totalShares. -/
def safeSharePrice (preMoney : ℚ) (safe : SafeInvestment) (totalShares : ℚ) : ℚ :=
  conversionPrice preMoney safe / totalShares

/-- Shares a SAFE converts into, line 63 of OwnershipTable.tsx:
convertedShares = safe.amount / sharePrice. -/
def convertedShares (preMoney : ℚ) (safe : SafeInvestment) (totalShares : ℚ) : ℚ :=
  safe.amount / safeSharePrice preMoney safe totalShares

/-- Sum of all SAFE amounts, OwnershipTable.tsx line 53 and
ExitScenario.tsx line 79 (taken over the whole SAFE list, converted or
not). -/
def roundSafeInvestment (safes : List SafeInvestment) : ℚ :=
  (safes.map (fun s => s.amount)).sum

/-- Price per share for a priced round, lines 80-81 of OwnershipTable.tsx:
(preMoneyValuation - roundSafeInvestment) / totalShares. -/
def roundPricePerShare (safes : List SafeInvestment) (round : PricingRoundData)
    (totalShares : ℚ) : ℚ :=
  (round.preMoneyValuation - roundSafeInvestment safes) / totalShares

/-- New shares issued to the round, line 82 of OwnershipTable.tsx:
round.investment / pricePerShare. -/
def roundNewShares (safes : List SafeInvestment) (round : PricingRoundData)
    (totalShares : ℚ) : ℚ :=
  round.investment / roundPricePerShare safes round totalShares

/-- Running state of either replay: the running share total and the
stakeholder list (entries are appended at the end, as array push does). -/
structure OwnState where
  totalShares : ℚ
  stakeholders : List Stakeholder
  deriving DecidableEq, Repr

/-- Initial state of both replays: totalShares = company.totalShares and a
single Founders entry holding foundersShares (OwnershipTable.tsx lines
36-47, ExitScenario.tsx lines 43-57). -/
def initialState (company : Company) : OwnState :=
  { totalShares := company.totalShares
    stakeholders := [⟨"Founders", company.foundersShares, 0, .founder⟩] }

/-- One iteration of the SAFE loop of the ownership view
(OwnershipTable.tsx lines 55-77): skip unconverted notes; otherwise add
the converted shares to the accumulator and push a stakeholder entry
unless one with the same investor name already exists. -/
def safeFoldStep (preMoney totalShares : ℚ) (acc : ℚ × List Stakeholder)
    (safe : SafeInvestment) : ℚ × List Stakeholder :=
  if safe.converted then
    let conv := convertedShares preMoney safe totalShares
    let pushed :=
      if (acc.2.find? (fun s => s.name == safe.investorName)).isSome then acc.2
      else acc.2 ++ [⟨safe.investorName, conv, safe.amount, .safe⟩]
    (acc.1 + conv, pushed)
  else acc

/-- One priced round of the ownership view (OwnershipTable.tsx lines
50-99): run the SAFE loop against the pre-round total, price the round
off the effective pre-money, push one entry per round investor, then add
the converted SAFE shares plus the round's new shares to the total. -/
def ownershipRoundStep (safes : List SafeInvestment) (st : OwnState)
    (round : PricingRoundData) : OwnState :=
  let res := safes.foldl (safeFoldStep round.preMoneyValuation st.totalShares)
    (0, st.stakeholders)
  let pps := roundPricePerShare safes round st.totalShares
  { totalShares := st.totalShares + res.1 + roundNewShares safes round st.totalShares
    stakeholders := res.2 ++ round.newInvestors.map
      (fun inv => ⟨inv.name, inv.investment / pps, inv.investment, .investor⟩) }

/-- Ownership view state after replaying the rounds in order
(OwnershipTable.tsx ownershipData, lines 35-104).  The stakeholder list is
kept in construction order; the source sorts it by ownership percent for
display only, which permutes entries without changing any entry. -/
def ownershipState (company : Company) (safes : List SafeInvestment)
    (rounds : List PricingRoundData) : OwnState :=
  rounds.foldl (ownershipRoundStep safes) (initialState company)

/-- One priced round of the exit view (ExitScenario.tsx lines 60-104):
push one SAFE entry per note in the scenario (the converted flag is never
consulted), push one entry per round investor, then add all converted SAFE
shares plus the round's new shares to the total. -/
def exitRoundStep (safes : List SafeInvestment) (st : OwnState)
    (round : PricingRoundData) : OwnState :=
  let safeEntries := safes.map (fun safe =>
    (⟨safe.investorName, convertedShares round.preMoneyValuation safe st.totalShares,
      safe.amount, .safe⟩ : Stakeholder))
  let pps := roundPricePerShare safes round st.totalShares
  let investorEntries := round.newInvestors.map
    (fun inv => (⟨inv.name, inv.investment / pps, inv.investment, .investor⟩ : Stakeholder))
  let safeShares := (safes.map (fun safe =>
    convertedShares round.preMoneyValuation safe st.totalShares)).sum
  { totalShares := st.totalShares + safeShares + roundNewShares safes round st.totalShares
    stakeholders := st.stakeholders ++ safeEntries ++ investorEntries }

/-- Exit view state after replaying the rounds in order (the non-null
branch of ExitScenario.tsx ownershipStructure, lines 40-107). -/
def exitState (company : Company) (safes : List SafeInvestment)
    (rounds : List PricingRoundData) : OwnState :=
  rounds.foldl (exitRoundStep safes) (initialState company)

/-- ExitScenario.tsx ownershipStructure: null when no round has been
processed, otherwise the replayed exit state. -/
def ownershipStructure (company : Company) (safes : List SafeInvestment)
    (rounds : List PricingRoundData) : Option OwnState :=
  if rounds.isEmpty then none else some (exitState company safes rounds)

/-- Per-investor payout row of the exit waterfall (ExitScenario.tsx lines
120-132). -/
structure InvestorPayout where
  name : String
  investment : ℚ
  payout : ℚ
  roi : ℚ
  multiple : ℚ
  deriving DecidableEq, Repr

/-- One exit scenario row (ExitScenario.tsx lines 112-142). -/
structure ExitCalculation where
  exitValuation : ℚ
  founderPayout : ℚ
  founderROI : ℚ
  investorPayouts : List InvestorPayout
  totalPayouts : ℚ
  deriving DecidableEq, Repr

/-- ExitScenario.tsx lines 120-131: payout = shares * pricePerShare, and
roi and multiple fall back to the number 0 when investment is not
positive. -/
def stakeholderPayout (pps : ℚ) (s : Stakeholder) : InvestorPayout :=
  let payout := s.shares * pps
  { name := s.name
    investment := s.investment
    payout := payout
    roi := if s.investment > 0 then (payout - s.investment) / s.investment * 100 else 0
    multiple := if s.investment > 0 then payout / s.investment else 0 }

/-- Exit waterfall for one exit valuation (ExitScenario.tsx lines
112-142): founder payout comes from the stakeholder found by name
"Founders" (0 if absent), investor payouts from every stakeholder whose
type is not founder, founderROI is the literal 0 of line 139, and
totalPayouts is the founder payout plus the sum of investor payouts. -/
def exitCalculation (os : OwnState) (exitVal : ℚ) : ExitCalculation :=
  let pps := exitVal / os.totalShares
  let founderPayout :=
    match os.stakeholders.find? (fun s => s.name == "Founders") with
    | some s => s.shares * pps
    | none => 0
  let investorPayouts :=
    (os.stakeholders.filter (fun s => !(s.type == StakeholderType.founder))).map
      (stakeholderPayout pps)
  { exitValuation := exitVal
    founderPayout := founderPayout
    founderROI := 0
    investorPayouts := investorPayouts
    totalPayouts := founderPayout + (investorPayouts.map (fun p => p.payout)).sum }

/-- Index.tsx handlePricingRound (lines 69-83): append the new round and
mark every SAFE in the scenario converted. -/
def handlePricingRound (safes : List SafeInvestment)
    (rounds : List PricingRoundData) (round : PricingRoundData) :
    List SafeInvestment × List PricingRoundData :=
  (safes.map (fun s => { s with converted := true }), rounds ++ [round])

/-- CompanySetup.tsx handleSubmit (lines 21-32): build the Company record
from the parsed form fields and hand it to onSetup.  There is no
validation of any kind in the source. -/
def handleSubmit (name : String) (foundersShares totalShares initialValuation : ℚ) :
    Company :=
  { name := name
    foundersShares := foundersShares
    totalShares := totalShares
    initialValuation := initialValuation }

/-- Result record of the PricingRound preview (the calculations memo of
the PricingRound component, lines 30-74). -/
structure RoundCalculations where
  preMoneyPricePerShare : ℚ
  newShares : ℚ
  safeShares : ℚ
  totalSharesAfter : ℚ
  postMoneyPricePerShare : ℚ
  postMoneyValuation : ℚ
  founderOwnership : ℚ
  safeOwnership : ℚ
  newInvestorOwnership : ℚ
  deriving DecidableEq, Repr

/-- The PricingRound preview calculations (lines 30-74 of the PricingRound
component): all conversion denominators use company.totalShares, safeShares
and the effective pre-money adjustment apply only when at least one SAFE
exists. -/
def previewCalculations (company : Company) (safes : List SafeInvestment)
    (preMoneyVal totalInvestment : ℚ) : RoundCalculations :=
  let postMoneyVal := preMoneyVal + totalInvestment
  let totalSafeInvestment := (safes.map (fun s => s.amount)).sum
  let safeShares :=
    if safes.isEmpty then 0
    else (safes.map (fun safe =>
      safe.amount / (conversionPrice preMoneyVal safe / company.totalShares))).sum
  let effectivePreMoney :=
    if safes.isEmpty then preMoneyVal else preMoneyVal - totalSafeInvestment
  let pps := effectivePreMoney / company.totalShares
  let newShares := totalInvestment / pps
  let totalSharesAfter := company.totalShares + safeShares + newShares
  { preMoneyPricePerShare := pps
    newShares := newShares
    safeShares := safeShares
    totalSharesAfter := totalSharesAfter
    postMoneyPricePerShare := postMoneyVal / totalSharesAfter
    postMoneyValuation := postMoneyVal
    founderOwnership := company.foundersShares / totalSharesAfter * 100
    safeOwnership := safeShares / totalSharesAfter * 100
    newInvestorOwnership := newShares / totalSharesAfter * 100 }

/-- Sum of the share counts of a stakeholder list. -/
def sumShares (l : List Stakeholder) : ℚ :=
  (l.map (fun s => s.shares)).sum

/-- Sum of the share counts of the entries carrying a given name. -/
def sumSharesOf (l : List Stakeholder) (n : String) : ℚ :=
  ((l.filter (fun s => s.name == n)).map (fun s => s.shares)).sum

/-! Concrete scenario of the spec's worked example: Company(8,000,000
founder shares, 10,000,000 total, 1,000,000 initial valuation), one SAFE
(Angel, 250,000, 20 percent discount, 5,000,000 cap), one priced round
(Series A, 8,000,000 pre-money, 2,000,000 invested by VC). -/

def c1company : Company :=
  { name := "Acme", foundersShares := 8000000, totalShares := 10000000
    initialValuation := 1000000 }

def c1safe : SafeInvestment :=
  { investorName := "Angel", amount := 250000, discount := 20
    valuationCap := some 5000000, converted := false }

def c1round : PricingRoundData :=
  { name := "Series A", preMoneyValuation := 8000000, investment := 2000000
    newInvestors := [{ name := "VC", investment := 2000000 }] }

/-- Scenario state after the round is added: handlePricingRound flips the
SAFE to converted and appends the round. -/
def c1scenario : List SafeInvestment × List PricingRoundData :=
  handlePricingRound [c1safe] [] c1round

/-- The SAFE as it exists after the round was processed. -/
def c1safeConverted : SafeInvestment := { c1safe with converted := true }

/-- Ownership view state of the worked example. -/
def c1own : OwnState := ownershipState c1company c1scenario.1 c1scenario.2

/-- C1: in the worked scenario the SAFE converts at 0.5 per share into
500,000 shares, the effective pre-money is 7,750,000 giving a round price
of 0.775, the new investor receives about 2,580,645.16 shares, the total
after is about 13,080,645.16 shares, founder ownership is about 61.16
percent, and the PricingRound preview computes the same share totals. -/
theorem claim1_series_a_scenario :
    safeSharePrice c1round.preMoneyValuation c1safeConverted c1company.totalShares = 1/2 ∧
    convertedShares c1round.preMoneyValuation c1safeConverted c1company.totalShares = 500000 ∧
    c1round.preMoneyValuation - roundSafeInvestment c1scenario.1 = 7750000 ∧
    roundPricePerShare c1scenario.1 c1round c1company.totalShares = 775/1000 ∧
    |roundNewShares c1scenario.1 c1round c1company.totalShares - 258064516/100| < 1/100 ∧
    |c1own.totalShares - 1308064516/100| < 1/100 ∧
    |ownershipPercent c1company.foundersShares c1own.totalShares - 6116/100| < 1/100 ∧
    (previewCalculations c1company c1scenario.1 8000000 2000000).safeShares = 500000 ∧
    |(previewCalculations c1company c1scenario.1 8000000 2000000).totalSharesAfter
      - 1308064516/100| < 1/100 := by
  norm_num [safeSharePrice, conversionPrice, convertedShares, roundSafeInvestment,
    roundPricePerShare, roundNewShares, c1company, c1round, c1safe, c1safeConverted,
    c1scenario, handlePricingRound, c1own, ownershipState, ownershipRoundStep,
    safeFoldStep, initialState, ownershipPercent, previewCalculations, min_def,
    abs_lt]

/-! Two-round scenario used to exercise repeated conversion: one SAFE
(Angel, 10, no discount, no cap, marked converted after the first round),
then two priced rounds. -/

def c2company : Company :=
  { name := "Beta", foundersShares := 80, totalShares := 100, initialValuation := 100 }

def c2safes : List SafeInvestment :=
  [{ investorName := "Angel", amount := 10, discount := 0, valuationCap := none
     converted := true }]

def c2rounds : List PricingRoundData :=
  [{ name := "R1", preMoneyValuation := 100, investment := 10
     newInvestors := [{ name := "V1", investment := 10 }] },
   { name := "R2", preMoneyValuation := 200, investment := 20
     newInvestors := [{ name := "V2", investment := 20 }] }]

/-- C2 counterexample: with one already-converted SAFE and two processed
rounds, the exit view holds two stakeholder entries for the SAFE investor,
so the second processed round does add a stakeholder entry for an
already-converted SAFE. -/
theorem claim2_counterexample :
    ((exitState c2company c2safes c2rounds).stakeholders.countP
      (fun s => s.name == "Angel")) = 2 := by
  decide

/-- Length of the exit-view stakeholder list after folding any rounds from
any starting state: each round contributes one entry per SAFE plus one
entry per round investor. -/
lemma exit_foldl_length (safes : List SafeInvestment)
    (rounds : List PricingRoundData) :
    ∀ st : OwnState,
    (rounds.foldl (exitRoundStep safes) st).stakeholders.length
      = st.stakeholders.length
        + (rounds.map (fun r => safes.length + r.newInvestors.length)).sum := by
  induction rounds with
  | nil => intro st; simp
  | cons r rs ih =>
      intro st
      rw [List.foldl_cons, ih]
      simp [exitRoundStep]
      omega

/-- C2 amended: a SAFE does not convert at most once.  Every processed
round appends one exit-view stakeholder entry per SAFE in the scenario
(regardless of the converted flag) plus one entry per round investor, so
an already-converted SAFE is converted again by every later round. -/
theorem claim2_amended (company : Company) (safes : List SafeInvestment)
    (rounds : List PricingRoundData) :
    (exitState company safes rounds).stakeholders.length
      = 1 + (rounds.map (fun r => safes.length + r.newInvestors.length)).sum := by
  rw [exitState, exit_foldl_length]
  simp [initialState, Nat.add_comm]

/-- First component of one ownership-view SAFE step for a converted note:
the converted shares are always accumulated, whether or not a stakeholder
entry is pushed. -/
lemma safeFoldStep_fst_converted (preMoney t : ℚ) (acc : ℚ × List Stakeholder)
    (safe : SafeInvestment) (h : safe.converted = true) :
    (safeFoldStep preMoney t acc safe).1 = acc.1 + convertedShares preMoney safe t := by
  simp [safeFoldStep, h]

/-- First component of the ownership-view SAFE loop when every note is
converted: all converted shares accumulate, independent of name clashes. -/
lemma safeFold_fst (preMoney t : ℚ) (safes : List SafeInvestment) :
    ∀ acc : ℚ × List Stakeholder, (∀ s ∈ safes, s.converted = true) →
    (safes.foldl (safeFoldStep preMoney t) acc).1
      = acc.1 + (safes.map (fun s => convertedShares preMoney s t)).sum := by
  induction safes with
  | nil => intro acc _; simp
  | cons s rest ih =>
      intro acc hconv
      rw [List.foldl_cons, ih _ (fun a ha => hconv a (List.mem_cons_of_mem _ ha)),
        safeFoldStep_fst_converted _ _ _ _ (hconv s (List.mem_cons_self s rest))]
      simp [add_assoc]

/-- The ownership-view SAFE loop when every note is converted, the notes
carry pairwise distinct names and none of those names occurs in the
accumulated stakeholder list: every note is pushed, in order. -/
lemma safeFold_pushed (preMoney t : ℚ) (safes : List SafeInvestment) :
    ∀ acc : ℚ × List Stakeholder,
    (∀ s ∈ safes, s.converted = true) →
    (∀ s ∈ safes, ∀ e ∈ acc.2, e.name ≠ s.investorName) →
    ((safes.map (fun s => s.investorName)).Nodup) →
    safes.foldl (safeFoldStep preMoney t) acc
      = (acc.1 + (safes.map (fun s => convertedShares preMoney s t)).sum,
         acc.2 ++ safes.map (fun s =>
           ⟨s.investorName, convertedShares preMoney s t, s.amount, .safe⟩)) := by
  induction safes with
  | nil => intro acc _ _ _; simp
  | cons s rest ih =>
      intro acc hconv hfresh hnodup
      have hs : s.converted = true := hconv s (List.mem_cons_self s rest)
      have hfind : acc.2.find? (fun e => e.name == s.investorName) = none := by
        rw [List.find?_eq_none]
        intro e he
        simpa using hfresh s (List.mem_cons_self s rest) e he
      have hstep : safeFoldStep preMoney t acc s
          = (acc.1 + convertedShares preMoney s t,
             acc.2 ++ [⟨s.investorName, convertedShares preMoney s t, s.amount, .safe⟩]) := by
        simp [safeFoldStep, hs, hfind]
      have hnodup2 : (s.investorName ::
          rest.map (fun a => a.investorName)).Nodup := by simpa using hnodup
      have hnd := List.nodup_cons.mp hnodup2
      rw [List.foldl_cons, hstep,
        ih _ (fun a ha => hconv a (List.mem_cons_of_mem _ ha)) ?_ hnd.2]
      · simp [add_assoc]
      · intro a ha e he
        rcases List.mem_append.mp he with h1 | h1
        · exact hfresh a (List.mem_cons_of_mem _ ha) e h1
        · have he2 : e = (⟨s.investorName, convertedShares preMoney s t, s.amount,
              .safe⟩ : Stakeholder) := by simpa using h1
          subst he2
          intro hcontra
          have hcontra2 : s.investorName = a.investorName := hcontra
          refine hnd.1 ?_
          rw [hcontra2]
          exact List.mem_map_of_mem (fun a => a.investorName) ha

/-- Share sum of the stakeholder entries created for a list of SAFE
notes. -/
lemma sum_shares_safe_entries (preMoney t : ℚ) (safes : List SafeInvestment) :
    (List.map (fun s => Stakeholder.shares s)
      (safes.map (fun s => (⟨s.investorName, convertedShares preMoney s t,
        s.amount, .safe⟩ : Stakeholder)))).sum
      = (safes.map (fun s => convertedShares preMoney s t)).sum := by
  induction safes with
  | nil => simp
  | cons a rest ih => simp only [List.map_cons, List.sum_cons, ih]

/-- Share sum of the stakeholder entries created for a round's investors:
each amount is divided by the round price, so the sum is the summed
amounts divided by the round price. -/
lemma sum_shares_investor_entries (p : ℚ) (l : List RoundInvestor) :
    (List.map (fun s => Stakeholder.shares s)
      (l.map (fun inv => (⟨inv.name, inv.investment / p, inv.investment,
        .investor⟩ : Stakeholder)))).sum
      = (l.map (fun inv => inv.investment)).sum / p := by
  induction l with
  | nil => simp
  | cons a rest ih => simp only [List.map_cons, List.sum_cons, ih, add_div]

/-- C3 counterexample: in the worked Series A scenario the stakeholder
share counts sum to 2,000,000 fewer shares than totalSharesOutstanding
(the initial non-founder shares are never assigned to any stakeholder),
far outside the 1e-6 relative tolerance. -/
theorem claim3_counterexample :
    c1own.totalShares - sumShares c1own.stakeholders = 2000000 ∧
    (1/1000000) * c1own.totalShares < 2000000 := by
  have h : (("Founders" : String) == "Angel") = false := by decide
  norm_num [sumShares, c1own, ownershipState, ownershipRoundStep, safeFoldStep,
    initialState, c1company, c1scenario, c1safe, c1round, handlePricingRound,
    convertedShares, safeSharePrice, conversionPrice, roundSafeInvestment,
    roundPricePerShare, roundNewShares, min_def, List.find?, h]

/-- C3 amended: the stakeholder share counts do not sum to
totalSharesOutstanding; they fall short by exactly the initial non-founder
shares (company.totalShares - company.foundersShares).  Stated for one
processed round with all SAFEs converted, distinct SAFE names not equal to
"Founders", and round investor amounts summing to the round's investment
field. -/
theorem claim3_amended (company : Company) (safes : List SafeInvestment)
    (r : PricingRoundData)
    (hconv : ∀ s ∈ safes, s.converted = true)
    (hnodup : (safes.map (fun s => s.investorName)).Nodup)
    (hfound : ∀ s ∈ safes, s.investorName ≠ "Founders")
    (hinv : (r.newInvestors.map (fun inv => inv.investment)).sum = r.investment) :
    sumShares (ownershipState company safes [r]).stakeholders
      = (ownershipState company safes [r]).totalShares
        - (company.totalShares - company.foundersShares) := by
  have hfresh : ∀ s ∈ safes, ∀ e ∈ (0, (initialState company).stakeholders).2,
      e.name ≠ s.investorName := by
    intro s hs e he
    have he2 : e = (⟨"Founders", company.foundersShares, 0, .founder⟩ : Stakeholder) := by
      simpa [initialState] using he
    subst he2
    exact fun h => hfound s hs h.symm
  simp only [ownershipState, List.foldl_cons, List.foldl_nil, ownershipRoundStep]
  rw [safeFold_pushed _ _ _ _ hconv hfresh hnodup]
  simp only [sumShares, List.map_append, List.sum_append]
  rw [sum_shares_safe_entries, sum_shares_investor_entries, hinv]
  simp only [initialState, roundNewShares, List.map_cons, List.map_nil,
    List.sum_cons, List.sum_nil]
  ring

/-- C3 amended witness at the worked Series A scenario. -/
theorem claim3_amended_witness :
    sumShares (ownershipState c1company c1scenario.1 [c1round]).stakeholders
      = (ownershipState c1company c1scenario.1 [c1round]).totalShares
        - (c1company.totalShares - c1company.foundersShares) :=
  claim3_amended c1company c1scenario.1 c1round (by decide) (by decide)
    (by decide) (by norm_num [c1round])

/-- Folding exit-view rounds only appends stakeholder entries, and every
appended entry has type safe or investor, never founder. -/
lemma exit_foldl_extends (safes : List SafeInvestment)
    (rounds : List PricingRoundData) :
    ∀ st : OwnState, ∃ extra : List Stakeholder,
      (rounds.foldl (exitRoundStep safes) st).stakeholders
        = st.stakeholders ++ extra ∧
      ∀ e ∈ extra, e.type ≠ StakeholderType.founder := by
  induction rounds with
  | nil => intro st; exact ⟨[], by simp, by simp⟩
  | cons r rs ih =>
      intro st
      obtain ⟨extra, hext, hty⟩ := ih (exitRoundStep safes st r)
      refine ⟨(safes.map fun safe => (⟨safe.investorName,
          convertedShares r.preMoneyValuation safe st.totalShares, safe.amount,
          .safe⟩ : Stakeholder))
        ++ (r.newInvestors.map fun inv => (⟨inv.name,
          inv.investment / roundPricePerShare safes r st.totalShares, inv.investment,
          .investor⟩ : Stakeholder))
        ++ extra, ?_, ?_⟩
      · rw [List.foldl_cons, hext]
        simp [exitRoundStep]
      · intro e he
        rcases List.mem_append.mp he with h1 | h1
        · rcases List.mem_append.mp h1 with h2 | h2
          · obtain ⟨x, _, rfl⟩ := List.mem_map.mp h2
            simp
          · obtain ⟨x, _, rfl⟩ := List.mem_map.mp h2
            simp
        · exact hty e h1

/-- Sum of the payout fields over the payout rows built from a stakeholder
list: each payout is shares times the exit price. -/
lemma sum_payouts (pps : ℚ) (l : List Stakeholder) :
    ((l.map (stakeholderPayout pps)).map (fun p => p.payout)).sum
      = sumShares l * pps := by
  induction l with
  | nil => simp [sumShares]
  | cons a rest ih =>
      simp only [List.map_cons, List.sum_cons, ih, sumShares, stakeholderPayout,
        add_mul]

/-- Exit view of the worked Series A scenario. -/
def c4os : OwnState := exitState c1company c1scenario.1 c1scenario.2

/-- C4 counterexample: at a 10,000,000 exit of the worked scenario the
total of all stakeholder payouts falls short of the exit valuation by far
more than the 1e-6 relative tolerance, because the initial non-founder
shares receive a slice of the valuation but belong to no stakeholder. -/
theorem claim4_counterexample :
    10000000 - (exitCalculation c4os 10000000).totalPayouts
      > (1/1000000) * 10000000 := by
  have hF : (("Founders" : String) == "Founders") = true := by decide
  have hA : (("Angel" : String) == "Founders") = false := by decide
  have t1 : (StakeholderType.founder == StakeholderType.founder) = true := by decide
  have t2 : (StakeholderType.safe == StakeholderType.founder) = false := by decide
  have t3 : (StakeholderType.investor == StakeholderType.founder) = false := by decide
  norm_num [exitCalculation, stakeholderPayout, c4os, exitState, exitRoundStep,
    initialState, c1company, c1scenario, c1safe, c1round, handlePricingRound,
    convertedShares, safeSharePrice, conversionPrice, roundSafeInvestment,
    roundPricePerShare, roundNewShares, min_def, List.find?, List.filter,
    hF, hA, t1, t2, t3, sumShares]

/-- C4 amended: for every state the exit view produces, the total payout
at exit valuation V equals (sum of all stakeholder shares) times
V / totalSharesOutstanding, not V itself; it equals V only when the
stakeholder shares exhaust totalSharesOutstanding. -/
theorem claim4_amended (company : Company) (safes : List SafeInvestment)
    (rounds : List PricingRoundData) (V : ℚ) (os : OwnState)
    (hos : ownershipStructure company safes rounds = some os) :
    (exitCalculation os V).totalPayouts
      = sumShares os.stakeholders * (V / os.totalShares) := by
  have hos2 : os = exitState company safes rounds := by
    by_cases h : rounds.isEmpty
    · simp [ownershipStructure, h] at hos
    · simp [ownershipStructure, h] at hos
      exact hos.symm
  subst hos2
  obtain ⟨extra, hext, hty⟩ := exit_foldl_extends safes rounds (initialState company)
  have hstk : (exitState company safes rounds).stakeholders
      = (⟨"Founders", company.foundersShares, 0, .founder⟩ : Stakeholder) :: extra := by
    rw [exitState, hext]
    simp [initialState]
  have hfind : (exitState company safes rounds).stakeholders.find?
      (fun s => s.name == "Founders")
      = some (⟨"Founders", company.foundersShares, 0, .founder⟩ : Stakeholder) := by
    rw [hstk]
    exact List.find?_cons_of_pos _ (by simp)
  have hfilter : (exitState company safes rounds).stakeholders.filter
      (fun s => !(s.type == StakeholderType.founder)) = extra := by
    rw [hstk]
    simp [List.filter_cons, List.filter_eq_self]
    intro e he
    simpa using hty e he
  simp only [exitCalculation, hfind, hfilter, sum_payouts]
  rw [hstk]
  simp only [sumShares, List.map_cons, List.sum_cons]
  ring

/-- C4 amended witness at the worked scenario with exit valuation 1000. -/
theorem claim4_amended_witness :
    (exitCalculation (exitState c1company c1scenario.1 c1scenario.2) 1000).totalPayouts
      = sumShares (exitState c1company c1scenario.1 c1scenario.2).stakeholders
        * (1000 / (exitState c1company c1scenario.1 c1scenario.2).totalShares) :=
  claim4_amended c1company c1scenario.1 c1scenario.2 1000 _ rfl

/-- SAFE whose amount exceeds the next round's pre-money valuation. -/
def c5safe : SafeInvestment :=
  { investorName := "Big", amount := 9000000, discount := 0, valuationCap := none
    converted := true }

def c5round : PricingRoundData :=
  { name := "Down", preMoneyValuation := 8000000, investment := 2000000
    newInvestors := [{ name := "VC", investment := 2000000 }] }

/-- C5 counterexample: a round whose SAFE total (9,000,000) exceeds its
pre-money valuation (8,000,000) raises no error and does not leave the
state unchanged: it is processed with a negative price per share and
negative new shares, and totalSharesOutstanding changes. -/
theorem claim5_counterexample :
    roundPricePerShare [c5safe] c5round c1company.totalShares < 0 ∧
    roundNewShares [c5safe] c5round c1company.totalShares < 0 ∧
    (ownershipState c1company [c5safe] [c5round]).totalShares
      ≠ c1company.totalShares := by
  have hB : (("Founders" : String) == "Big") = false := by decide
  norm_num [roundPricePerShare, roundNewShares, roundSafeInvestment,
    ownershipState, ownershipRoundStep, safeFoldStep, initialState, c1company,
    c5safe, c5round, convertedShares, safeSharePrice, conversionPrice,
    List.find?, hB]

/-- C5 amended: there is no InvalidRound validation anywhere.  When the
pending SAFE amounts strictly exceed the round's pre-money valuation the
round is still processed: the price per share is negative and the new
investor shares are negative.  (At exact equality the source divides by
zero, again without an error.) -/
theorem claim5_amended (safes : List SafeInvestment) (r : PricingRoundData)
    (t : ℚ) (h1 : r.preMoneyValuation < roundSafeInvestment safes)
    (h2 : 0 < t) (h3 : 0 < r.investment) :
    roundPricePerShare safes r t < 0 ∧ roundNewShares safes r t < 0 := by
  have hp : roundPricePerShare safes r t < 0 := by
    rw [roundPricePerShare]
    exact div_neg_of_neg_of_pos (by linarith) h2
  refine ⟨hp, ?_⟩
  rw [roundNewShares]
  exact div_neg_of_pos_of_neg h3 hp

/-- C5 amended witness at the concrete over-sized SAFE scenario. -/
theorem claim5_amended_witness :
    roundPricePerShare [c5safe] c5round 10000000 < 0 ∧
    roundNewShares [c5safe] c5round 10000000 < 0 :=
  claim5_amended [c5safe] c5round 10000000
    (by norm_num [roundSafeInvestment, c5safe, c5round]) (by norm_num)
    (by norm_num [c5round])

/-- C6 counterexample: with one converted SAFE and two processed rounds,
the per-name share totals of the two views differ for the SAFE investor:
the ownership view keeps only the first-round conversion shares while the
exit view also holds second-round conversion shares. -/
theorem claim6_counterexample :
    sumSharesOf (ownershipState c2company c2safes c2rounds).stakeholders "Angel"
      ≠ sumSharesOf (exitState c2company c2safes c2rounds).stakeholders "Angel" := by
  have h1 : (("Founders" : String) == "Angel") = false := by decide
  have h2 : (("Angel" : String) == "Angel") = true := by decide
  have h3 : (("V1" : String) == "Angel") = false := by decide
  have h4 : (("V2" : String) == "Angel") = false := by decide
  norm_num [sumSharesOf, ownershipState, exitState, ownershipRoundStep,
    exitRoundStep, safeFoldStep, initialState, c2company, c2safes, c2rounds,
    convertedShares, safeSharePrice, conversionPrice, roundSafeInvestment,
    roundPricePerShare, roundNewShares, List.find?, List.filter, h1, h2, h3, h4]

/-- The ownership-view round step and the exit-view round step update the
running share total identically whenever every SAFE is converted, because
the total update never reads the stakeholder lists. -/
lemma own_exit_step_total (safes : List SafeInvestment) (st1 st2 : OwnState)
    (r : PricingRoundData) (hconv : ∀ s ∈ safes, s.converted = true)
    (ht : st1.totalShares = st2.totalShares) :
    (ownershipRoundStep safes st1 r).totalShares
      = (exitRoundStep safes st2 r).totalShares := by
  simp only [ownershipRoundStep, exitRoundStep]
  rw [safeFold_fst _ _ _ _ hconv, ht, zero_add]

/-- C6 amended: the two views agree on totalSharesOutstanding whenever
every SAFE is marked converted, but not on the stakeholder lists: from the
second processed round on, the exit view re-adds each SAFE as a new entry
while the ownership view keeps only the first entry, so the per-stakeholder
share counts diverge. -/
theorem claim6_amended (company : Company) (safes : List SafeInvestment)
    (rounds : List PricingRoundData)
    (hconv : ∀ s ∈ safes, s.converted = true) :
    (ownershipState company safes rounds).totalShares
      = (exitState company safes rounds).totalShares := by
  rw [ownershipState, exitState]
  have main : ∀ (rs : List PricingRoundData) (st1 st2 : OwnState),
      st1.totalShares = st2.totalShares →
      (rs.foldl (ownershipRoundStep safes) st1).totalShares
        = (rs.foldl (exitRoundStep safes) st2).totalShares := by
    intro rs
    induction rs with
    | nil => intro st1 st2 h; exact h
    | cons r rest ih =>
        intro st1 st2 h
        exact ih _ _ (own_exit_step_total safes st1 st2 r hconv h)
  exact main rounds _ _ rfl

/-- C6 amended witness at the worked Series A scenario. -/
theorem claim6_amended_witness :
    (ownershipState c1company c1scenario.1 c1scenario.2).totalShares
      = (exitState c1company c1scenario.1 c1scenario.2).totalShares :=
  claim6_amended c1company c1scenario.1 c1scenario.2 (by decide)

/-- C7: the per-share conversion price is min(discountPrice, capPrice)
with discountPrice = (preMoney/totalShares)(1 - discount/100) and
capPrice = cap/totalShares; with no cap it is the discount price alone;
with no cap and zero discount it is exactly the raw pre-money price per
share; and a positive cap below the discount-implied total price binds,
giving the cap-derived price. -/
theorem claim7_conversion_price (preMoney t a d a2 d2 c c2 : ℚ) (n n2 : String)
    (b b2 : Bool) (ht : 0 < t) (hc : 0 < c) (hc2 : 0 < c2)
    (hbind : c2 < preMoney * (1 - d2 / 100)) :
    safeSharePrice preMoney ⟨n, a, d, some c, b⟩ t
      = min (preMoney / t * (1 - d / 100)) (c / t) ∧
    safeSharePrice preMoney ⟨n, a, d, none, b⟩ t = preMoney / t * (1 - d / 100) ∧
    safeSharePrice preMoney ⟨n, a, 0, none, b⟩ t = preMoney / t ∧
    safeSharePrice preMoney ⟨n2, a2, d2, some c2, b2⟩ t = c2 / t := by
  refine ⟨?_, ?_, ?_, ?_⟩
  · rw [safeSharePrice, conversionPrice]
    simp only [if_neg (ne_of_gt hc)]
    rw [← min_div_div_right (le_of_lt ht), mul_div_right_comm]
  · rw [safeSharePrice, conversionPrice]
    simp only [mul_div_right_comm]
  · rw [safeSharePrice, conversionPrice]
    norm_num
  · rw [safeSharePrice, conversionPrice]
    simp only [if_neg (ne_of_gt hc2)]
    rw [min_eq_right (le_of_lt hbind)]

/-- C7 witness at the worked scenario numbers: pre-money 8,000,000 over
10,000,000 shares, 20 percent discount, caps 6,000,000 (general min form)
and 5,000,000 (binding, since 5,000,000 < 6,400,000). -/
theorem claim7_witness :
    safeSharePrice 8000000 ⟨"A", 250000, 20, some 6000000, false⟩ 10000000
      = min ((8000000 : ℚ) / 10000000 * (1 - 20 / 100)) (6000000 / 10000000) ∧
    safeSharePrice 8000000 ⟨"A", 250000, 20, none, false⟩ 10000000
      = (8000000 : ℚ) / 10000000 * (1 - 20 / 100) ∧
    safeSharePrice 8000000 ⟨"A", 250000, 0, none, false⟩ 10000000
      = (8000000 : ℚ) / 10000000 ∧
    safeSharePrice 8000000 ⟨"B", 250000, 20, some 5000000, false⟩ 10000000
      = (5000000 : ℚ) / 10000000 :=
  claim7_conversion_price 8000000 10000000 250000 20 250000 20 6000000 5000000
    "A" "B" false false (by norm_num) (by norm_num) (by norm_num) (by norm_num)

/-- C8 counterexample: founderROI is the numeric literal 0 in every exit
calculation record (line 139 of ExitScenario.tsx), so the worked scenario
reports founder ROI as 0, not as not-applicable. -/
theorem claim8_counterexample :
    (exitCalculation c4os 50000000).founderROI = 0 := rfl

/-- C8 amended: the exit waterfall never reports multiple or ROI as
undefined.  The founder ROI is the numeric 0 for every state and exit
valuation, and every investor payout row whose invested capital is not
positive carries multiple = 0 and ROI = 0. -/
theorem claim8_amended (os : OwnState) (V : ℚ) (p : InvestorPayout)
    (hp : p ∈ (exitCalculation os V).investorPayouts)
    (hinv : p.investment ≤ 0) :
    (exitCalculation os V).founderROI = 0 ∧ p.multiple = 0 ∧ p.roi = 0 := by
  refine ⟨rfl, ?_, ?_⟩ <;>
  · simp only [exitCalculation, List.mem_map] at hp
    obtain ⟨s, hs, rfl⟩ := hp
    simp only [stakeholderPayout] at hinv ⊢
    rw [if_neg (not_lt.mpr hinv)]

/-- Hand-built state with a zero-investment investor entry, used to
witness the degenerate multiple and ROI. -/
def c8os : OwnState :=
  { totalShares := 100
    stakeholders := [⟨"Founders", 80, 0, .founder⟩, ⟨"Gift", 20, 0, .investor⟩] }

/-- C8 amended witness: at c8os with exit valuation 1000 the Gift entry
(investment 0, payout 200) has multiple 0 and ROI 0, and founderROI is 0. -/
theorem claim8_amended_witness :
    (exitCalculation c8os 1000).founderROI = 0 ∧
    (⟨"Gift", 0, 200, 0, 0⟩ : InvestorPayout).multiple = 0 ∧
    (⟨"Gift", 0, 200, 0, 0⟩ : InvestorPayout).roi = 0 :=
  claim8_amended c8os 1000 ⟨"Gift", 0, 200, 0, 0⟩
    (by
      have t1 : (StakeholderType.founder == StakeholderType.founder) = true := by
        decide
      have t2 : (StakeholderType.investor == StakeholderType.founder) = false := by
        decide
      norm_num [exitCalculation, stakeholderPayout, c8os, List.filter, t1, t2])
    (by norm_num)

/-- C9 counterexample: handleSubmit builds a Company from founders = 20 and
total = 10 without any failure, although foundersShares > totalShares. -/
theorem claim9_counterexample :
    handleSubmit "X" 20 10 5
      = { name := "X", foundersShares := 20, totalShares := 10
          initialValuation := 5 } ∧
    (20 : ℚ) > 10 := ⟨rfl, by norm_num⟩

/-- C9 amended: company setup performs no validation at all: for every
input, including foundersShares greater than totalShares and non-positive
numeric fields, handleSubmit returns a Company carrying exactly the given
field values, and no ValidationError exists in the source. -/
theorem claim9_amended (nm : String) (f t v : ℚ) :
    (handleSubmit nm f t v).name = nm ∧
    (handleSubmit nm f t v).foundersShares = f ∧
    (handleSubmit nm f t v).totalShares = t ∧
    (handleSubmit nm f t v).initialValuation = v :=
  ⟨rfl, rfl, rfl, rfl⟩

/-- Running total of the ownership replay when every SAFE is converted,
mirroring line 97 of OwnershipTable.tsx: each processed round adds the
converted shares of every SAFE in the scenario (the map runs over the
whole SAFE list, duplicated names included, against the running pre-round
total) plus the round's new shares. -/
def totalAfter (safes : List SafeInvestment) (t : ℚ)
    (rounds : List PricingRoundData) : ℚ :=
  rounds.foldl (fun t r =>
    t + (safes.map (fun s => convertedShares r.preMoneyValuation s t)).sum
      + roundNewShares safes r t) t

/-- Processing a priced round marks every SAFE converted, so in a scenario
state with at least one processed round every note in the SAFE list at
processing time satisfies converted = true. -/
lemma handlePricingRound_converts (safes : List SafeInvestment)
    (rounds : List PricingRoundData) (r : PricingRoundData) :
    ∀ s ∈ (handlePricingRound safes rounds r).1, s.converted = true := by
  intro s hs
  obtain ⟨a, _, rfl⟩ := List.mem_map.mp hs
  rfl

/-- When every SAFE is converted the ownership replay's running total is
totalAfter: the stakeholder-entry dedup never affects the total. -/
lemma ownership_total_eq_totalAfter (safes : List SafeInvestment)
    (rounds : List PricingRoundData)
    (hconv : ∀ s ∈ safes, s.converted = true) :
    ∀ st : OwnState,
    (rounds.foldl (ownershipRoundStep safes) st).totalShares
      = totalAfter safes st.totalShares rounds := by
  induction rounds with
  | nil => intro st; simp [totalAfter]
  | cons r rs ih =>
      intro st
      have hstep : (ownershipRoundStep safes st r).totalShares
          = st.totalShares
            + (safes.map (fun s =>
                convertedShares r.preMoneyValuation s st.totalShares)).sum
            + roundNewShares safes r st.totalShares := by
        simp only [ownershipRoundStep]
        rw [safeFold_fst _ _ _ _ hconv, zero_add]
      rw [List.foldl_cons, ih, hstep]
      simp only [totalAfter, List.foldl_cons]

/-- Case analysis of one ownership-view SAFE step: the stakeholder list is
either unchanged, or extended with exactly the note's entry, the latter
only when no entry under the note's investor name exists yet. -/
lemma safeFoldStep_snd (preMoney t : ℚ) (acc : ℚ × List Stakeholder)
    (s : SafeInvestment) :
    (safeFoldStep preMoney t acc s).2 = acc.2 ∨
    ((safeFoldStep preMoney t acc s).2
        = acc.2 ++ [⟨s.investorName, convertedShares preMoney s t, s.amount,
            .safe⟩] ∧
      acc.2.find? (fun e => e.name == s.investorName) = none) := by
  by_cases hc : s.converted = true
  · by_cases hp : (acc.2.find? (fun e => e.name == s.investorName)).isSome = true
    · left
      simp [safeFoldStep, hc, hp]
    · right
      refine ⟨by simp [safeFoldStep, hc, hp], ?_⟩
      rw [← Option.not_isSome_iff_eq_none]
      simpa using hp
  · left
    simp [safeFoldStep, hc]

/-- The ownership-view SAFE loop preserves an existing stakeholder entry
found under a name, and the number of entries under that name: notes with
that name are deduped against the existing entry, and every other push
carries a different name. -/
lemma safeFold_preserve_entry (preMoney t : ℚ) (n : String)
    (safes : List SafeInvestment) :
    ∀ (acc : ℚ × List Stakeholder) (e : Stakeholder),
    acc.2.find? (fun x => x.name == n) = some e →
    ((safes.foldl (safeFoldStep preMoney t) acc).2.find? (fun x => x.name == n)
        = some e ∧
     (safes.foldl (safeFoldStep preMoney t) acc).2.countP (fun x => x.name == n)
        = acc.2.countP (fun x => x.name == n)) := by
  induction safes with
  | nil => intro acc e h; exact ⟨h, rfl⟩
  | cons s rest ih =>
      intro acc e h
      have hstep : ((safeFoldStep preMoney t acc s).2.find? (fun x => x.name == n)
            = some e)
          ∧ (safeFoldStep preMoney t acc s).2.countP (fun x => x.name == n)
            = acc.2.countP (fun x => x.name == n) := by
        rcases safeFoldStep_snd preMoney t acc s with heq | ⟨heq, hnone⟩
        · rw [heq]
          exact ⟨h, rfl⟩
        · have hne : (s.investorName == n) = false := by
            rw [beq_eq_false_iff_ne]
            intro hcontra
            rw [hcontra] at hnone
            rw [hnone] at h
            exact Option.noConfusion h
          rw [heq]
          constructor
          · rw [List.find?_append, h, Option.or_some]
          · rw [List.countP_append]
            have hone : List.countP (fun x => x.name == n)
                [(⟨s.investorName, convertedShares preMoney s t, s.amount,
                  .safe⟩ : Stakeholder)] = 0 := by
              simp [List.countP_cons, hne]
            rw [hone, Nat.add_zero]
      rw [List.foldl_cons]
      obtain ⟨h1, h2⟩ := ih (safeFoldStep preMoney t acc s) e hstep.1
      exact ⟨h1, by rw [h2, hstep.2]⟩

/-- When the accumulated list has no entry under the name yet and every
note is converted, the ownership-view SAFE loop creates exactly one entry
under the name: that of the first note carrying it, converted against the
loop's pre-round total. -/
lemma safeFold_create_entry (preMoney t : ℚ) (n : String)
    (s1 : SafeInvestment) (safes : List SafeInvestment) :
    ∀ acc : ℚ × List Stakeholder,
    (∀ s ∈ safes, s.converted = true) →
    safes.find? (fun s => s.investorName == n) = some s1 →
    acc.2.find? (fun x => x.name == n) = none →
    ((safes.foldl (safeFoldStep preMoney t) acc).2.find? (fun x => x.name == n)
        = some ⟨s1.investorName, convertedShares preMoney s1 t, s1.amount,
            .safe⟩ ∧
     (safes.foldl (safeFoldStep preMoney t) acc).2.countP (fun x => x.name == n)
        = acc.2.countP (fun x => x.name == n) + 1) := by
  induction safes with
  | nil =>
      intro acc _ hfirst _
      exact absurd hfirst (by simp)
  | cons s rest ih =>
      intro acc hconv hfirst hnone
      rw [List.foldl_cons]
      by_cases hsn : (s.investorName == n) = true
      · have hs1 : s = s1 := by
          rw [List.find?_cons_of_pos rest hsn] at hfirst
          exact Option.some.inj hfirst
        subst hs1
        have hc : s.converted = true := hconv s (List.mem_cons_self s rest)
        have hfind : acc.2.find? (fun x => x.name == s.investorName) = none := by
          have hn2 : s.investorName = n := by simpa using hsn
          rw [hn2]
          exact hnone
        have hstep : (safeFoldStep preMoney t acc s).2
            = acc.2 ++ [⟨s.investorName, convertedShares preMoney s t, s.amount,
                .safe⟩] := by
          simp [safeFoldStep, hc, hfind]
        have hfound2 : (safeFoldStep preMoney t acc s).2.find?
            (fun x => x.name == n)
            = some ⟨s.investorName, convertedShares preMoney s t, s.amount,
                .safe⟩ := by
          rw [hstep, List.find?_append, hnone, Option.none_or]
          rw [List.find?_cons_of_pos]
          exact hsn
        have hcount2 : (safeFoldStep preMoney t acc s).2.countP
            (fun x => x.name == n)
            = acc.2.countP (fun x => x.name == n) + 1 := by
          rw [hstep, List.countP_append]
          simp [List.countP_cons, hsn]
        obtain ⟨h1, h2⟩ := safeFold_preserve_entry preMoney t n rest
          (safeFoldStep preMoney t acc s) _ hfound2
        exact ⟨h1, by rw [h2, hcount2]⟩
      · have hfirst2 : rest.find? (fun s => s.investorName == n) = some s1 := by
          rw [List.find?_cons_of_neg rest hsn] at hfirst
          exact hfirst
        have hnone2 : (safeFoldStep preMoney t acc s).2.find?
            (fun x => x.name == n) = none := by
          rcases safeFoldStep_snd preMoney t acc s with heq | ⟨heq, _⟩
          · rw [heq]
            exact hnone
          · rw [heq, List.find?_append, hnone, Option.none_or]
            simp [hsn]
        have hcnt2 : (safeFoldStep preMoney t acc s).2.countP
            (fun x => x.name == n) = acc.2.countP (fun x => x.name == n) := by
          rcases safeFoldStep_snd preMoney t acc s with heq | ⟨heq, _⟩
          · rw [heq]
          · rw [heq, List.countP_append]
            simp [List.countP_cons, hsn]
        obtain ⟨h1, h2⟩ := ih (safeFoldStep preMoney t acc s)
          (fun a ha => hconv a (List.mem_cons_of_mem _ ha)) hfirst2 hnone2
        exact ⟨h1, by rw [h2, hcnt2]⟩

/-- One ownership-view round preserves the unique entry under a name that
no round investor carries. -/
lemma ownershipRoundStep_preserve (safes : List SafeInvestment) (n : String)
    (r : PricingRoundData) (st : OwnState) (e : Stakeholder)
    (hinvr : ∀ inv ∈ r.newInvestors, inv.name ≠ n)
    (h : st.stakeholders.find? (fun x => x.name == n) = some e)
    (hcnt : st.stakeholders.countP (fun x => x.name == n) = 1) :
    (ownershipRoundStep safes st r).stakeholders.find? (fun x => x.name == n)
        = some e ∧
    (ownershipRoundStep safes st r).stakeholders.countP (fun x => x.name == n)
        = 1 := by
  obtain ⟨h1, h2⟩ := safeFold_preserve_entry r.preMoneyValuation st.totalShares n
    safes (0, st.stakeholders) e h
  have hz : (r.newInvestors.map (fun inv => (⟨inv.name,
      inv.investment / roundPricePerShare safes r st.totalShares,
      inv.investment, .investor⟩ : Stakeholder))).countP
      (fun x => x.name == n) = 0 := by
    rw [List.countP_eq_zero]
    intro x hx
    obtain ⟨inv, hmem, rfl⟩ := List.mem_map.mp hx
    simpa using hinvr inv hmem
  constructor
  · simp only [ownershipRoundStep]
    rw [List.find?_append, h1, Option.or_some]
  · simp only [ownershipRoundStep]
    rw [List.countP_append, h2, hcnt, hz]

/-- The first processed round creates the unique entry under the note
name, holding the first such note's conversion against the pre-round
total. -/
lemma ownershipRoundStep_create (safes : List SafeInvestment) (n : String)
    (s1 : SafeInvestment) (r : PricingRoundData) (st : OwnState)
    (hconv : ∀ s ∈ safes, s.converted = true)
    (hfirst : safes.find? (fun s => s.investorName == n) = some s1)
    (hinvr : ∀ inv ∈ r.newInvestors, inv.name ≠ n)
    (hnone : st.stakeholders.find? (fun x => x.name == n) = none)
    (hcnt : st.stakeholders.countP (fun x => x.name == n) = 0) :
    (ownershipRoundStep safes st r).stakeholders.find? (fun x => x.name == n)
        = some ⟨s1.investorName,
            convertedShares r.preMoneyValuation s1 st.totalShares, s1.amount,
            .safe⟩ ∧
    (ownershipRoundStep safes st r).stakeholders.countP (fun x => x.name == n)
        = 1 := by
  obtain ⟨h1, h2⟩ := safeFold_create_entry r.preMoneyValuation st.totalShares n
    s1 safes (0, st.stakeholders) hconv hfirst hnone
  have hz : (r.newInvestors.map (fun inv => (⟨inv.name,
      inv.investment / roundPricePerShare safes r st.totalShares,
      inv.investment, .investor⟩ : Stakeholder))).countP
      (fun x => x.name == n) = 0 := by
    rw [List.countP_eq_zero]
    intro x hx
    obtain ⟨inv, hmem, rfl⟩ := List.mem_map.mp hx
    simpa using hinvr inv hmem
  constructor
  · simp only [ownershipRoundStep]
    rw [List.find?_append, h1, Option.or_some]
  · simp only [ownershipRoundStep]
    rw [List.countP_append, h2, hcnt, hz]

/-- Replaying any later rounds preserves the unique entry under a name
that no round investor carries. -/
lemma ownership_foldl_preserve (safes : List SafeInvestment) (n : String)
    (rs : List PricingRoundData) :
    ∀ (st : OwnState) (e : Stakeholder),
    (∀ r ∈ rs, ∀ inv ∈ r.newInvestors, inv.name ≠ n) →
    st.stakeholders.find? (fun x => x.name == n) = some e →
    st.stakeholders.countP (fun x => x.name == n) = 1 →
    ((rs.foldl (ownershipRoundStep safes) st).stakeholders.find?
        (fun x => x.name == n) = some e ∧
     (rs.foldl (ownershipRoundStep safes) st).stakeholders.countP
        (fun x => x.name == n) = 1) := by
  induction rs with
  | nil => intro st e _ h hc; exact ⟨h, hc⟩
  | cons r rest ih =>
      intro st e hinv h hc
      rw [List.foldl_cons]
      obtain ⟨h1, h2⟩ := ownershipRoundStep_preserve safes n r st e
        (hinv r (List.mem_cons_self r rest)) h hc
      exact ih _ e (fun a ha => hinv a (List.mem_cons_of_mem _ ha)) h1 h2

/-- C10: in every scenario with at least one processed priced round whose
SAFE list carries one investor name on two (or more) distinct notes — all
notes converted, as handlePricingRound leaves them, the name distinct from
"Founders" and from every round investor — the ownership snapshot holds
exactly one stakeholder entry under that name, carrying only the first
such note's converted shares (priced at the first round against the
initial total) and invested amount, while totalSharesOutstanding equals
totalAfter, whose per-round sum still includes the converted shares of
every note, duplicates included. -/
theorem claim10_duplicate_safe_names (company : Company)
    (safes : List SafeInvestment) (n : String) (s1 : SafeInvestment)
    (r1 : PricingRoundData) (rest : List PricingRoundData)
    (hconv : ∀ s ∈ safes, s.converted = true)
    (_hdup : 2 ≤ (safes.filter (fun s => s.investorName == n)).length)
    (hfirst : safes.find? (fun s => s.investorName == n) = some s1)
    (hfound : n ≠ "Founders")
    (hinv : ∀ r ∈ r1 :: rest, ∀ inv ∈ r.newInvestors, inv.name ≠ n) :
    ((ownershipState company safes (r1 :: rest)).stakeholders.countP
        (fun x => x.name == n)) = 1 ∧
    (ownershipState company safes (r1 :: rest)).stakeholders.find?
        (fun x => x.name == n)
      = some ⟨s1.investorName,
          convertedShares r1.preMoneyValuation s1 company.totalShares,
          s1.amount, .safe⟩ ∧
    (ownershipState company safes (r1 :: rest)).totalShares
      = totalAfter safes company.totalShares (r1 :: rest) := by
  have hnone : (initialState company).stakeholders.find?
      (fun x => x.name == n) = none := by
    rw [List.find?_eq_none]
    intro x hx
    have hx2 : x = (⟨"Founders", company.foundersShares, 0, .founder⟩ :
        Stakeholder) := by simpa [initialState] using hx
    subst hx2
    intro hcontra
    have hcontra2 : ("Founders" : String) = n := by simpa using hcontra
    exact hfound hcontra2.symm
  have hcnt0 : (initialState company).stakeholders.countP
      (fun x => x.name == n) = 0 :=
    List.countP_eq_zero.mpr (List.find?_eq_none.mp hnone)
  obtain ⟨h1, h2⟩ := ownershipRoundStep_create safes n s1 r1
    (initialState company) hconv hfirst
    (hinv r1 (List.mem_cons_self r1 rest)) hnone hcnt0
  have hinit : (initialState company).totalShares = company.totalShares := rfl
  rw [hinit] at h1
  obtain ⟨h3, h4⟩ := ownership_foldl_preserve safes n rest
    (ownershipRoundStep safes (initialState company) r1)
    ⟨s1.investorName, convertedShares r1.preMoneyValuation s1
      company.totalShares, s1.amount, .safe⟩
    (fun a ha => hinv a (List.mem_cons_of_mem _ ha)) h1 h2
  refine ⟨?_, ?_, ?_⟩
  · rw [ownershipState, List.foldl_cons]
    exact h4
  · rw [ownershipState, List.foldl_cons]
    exact h3
  · rw [ownershipState]
    exact ownership_total_eq_totalAfter safes (r1 :: rest) hconv
      (initialState company)

/-- Two SAFE notes under the same investor name, for the duplicate-name
witness. -/
def c10s1 : SafeInvestment :=
  { investorName := "Angel", amount := 100, discount := 0, valuationCap := none
    converted := true }

def c10s2 : SafeInvestment :=
  { investorName := "Angel", amount := 50, discount := 0, valuationCap := none
    converted := true }

def c10round : PricingRoundData :=
  { name := "R", preMoneyValuation := 1000, investment := 100
    newInvestors := [{ name := "VC", investment := 100 }] }

/-- C10 witness at a concrete duplicate-name scenario. -/
theorem claim10_witness :
    ((ownershipState c1company [c10s1, c10s2] [c10round]).stakeholders.countP
        (fun x => x.name == "Angel")) = 1 ∧
    (ownershipState c1company [c10s1, c10s2] [c10round]).stakeholders.find?
        (fun x => x.name == "Angel")
      = some ⟨c10s1.investorName,
          convertedShares c10round.preMoneyValuation c10s1 c1company.totalShares,
          c10s1.amount, .safe⟩ ∧
    (ownershipState c1company [c10s1, c10s2] [c10round]).totalShares
      = totalAfter [c10s1, c10s2] c1company.totalShares [c10round] :=
  claim10_duplicate_safe_names c1company [c10s1, c10s2] "Angel" c10s1 c10round
    [] (by decide) (by decide) rfl (by decide) (by decide)

end StakeStudio
